import Mathlib

/-!
Shallow embedding of the Earley chart parser in `src/earley.rs` (and the tree
type in `src/tree.rs`).  The Rust code is generic over a nonterminal type `N`
and a terminal type `T`, both with equality and hashing; the embedding is
generic over the same two types with decidable equality.  Rust's `HashSet` of
edges is modelled as a duplicate-free `List` kept in insertion order (the
membership guard in `add_edge` is the only way edges enter it), the `VecDeque`
worklist as a `List` with the front at the head, and the `HashMap` from
nonterminals to productions as filtering of the original production list
(entries are built by grouping, so the entry for `n` holds exactly the
productions with `lhs = n`, in insertion order).  Functions that panic in Rust
(`Chart::new` with no start production, `Chart::process_one` on an empty
worklist or on a nonterminal with no production) return `none`.
`Chart::process_all` loops until the worklist is empty; since its termination
is itself one of the properties under study it is embedded as fuel iteration
`processN` of the single step, and "`process_all` terminates" is stated as
"some amount of fuel empties the worklist".
-/

set_option linter.unusedSectionVars false

namespace Earley

/-- Rust `Symbol<N, T>`: tagged union of a nonterminal or a terminal. -/
inductive Symbol (N T : Type) where
  | Nonterminal (n : N)
  | Terminal (t : T)
deriving DecidableEq

/-- Rust `Production<N, T>`: a rewrite rule `lhs -> rhs`. -/
structure Production (N T : Type) where
  lhs : N
  rhs : List (Symbol N T)
deriving DecidableEq

/-- Rust `DottedRule<N, T>`: a production with a dot position. -/
structure DottedRule (N T : Type) where
  production : Production N T
  dot_pos : Nat
deriving DecidableEq

variable {N T : Type} [DecidableEq N] [DecidableEq T]

/-- Rust `Production::into_dotted_rule`.  The source panics when
`dot_pos > rhs.len()`; every call site in the chart engine passes `0`. -/
def Production.into_dotted_rule (p : Production N T) (dot_pos : Nat) : DottedRule N T :=
  ⟨p, dot_pos⟩

/-- Rust `DottedRule::next_symbol`: the symbol right after the dot, or `None`
when the dot is at the end of the right-hand side. -/
def DottedRule.next_symbol (d : DottedRule N T) : Option (Symbol N T) :=
  if d.dot_pos ≥ d.production.rhs.length then none
  else d.production.rhs.get? d.dot_pos

/-- Rust `DottedRule::advanced_dot`.  The source panics when the dot is already
at the end (`dot_pos >= rhs.len()`); every call site guards the call with
`next_symbol` returning `Some`, so the embedding increments unconditionally. -/
def DottedRule.advanced_dot (d : DottedRule N T) : DottedRule N T :=
  ⟨d.production, d.dot_pos + 1⟩

/-- Rust `DottedRule::is_complete`. -/
def DottedRule.is_complete (d : DottedRule N T) : Bool :=
  d.dot_pos ≥ d.production.rhs.length

/-- Rust `ChartEdge<N, T>`: a dotted rule, the input span `[start, end)` it
covers, and the history of completed child edges.  The type is recursive
through the history list, so it is an inductive with one constructor. -/
inductive ChartEdge (N T : Type) where
  | mk (dotted_rule : DottedRule N T) (start : Nat) («end» : Nat)
      (history : List (ChartEdge N T))

/-- Field accessor mirroring Rust `ChartEdge::dotted_rule`. -/
def ChartEdge.dotted_rule : ChartEdge N T → DottedRule N T
  | .mk d _ _ _ => d

/-- Field accessor mirroring Rust `ChartEdge::start`. -/
def ChartEdge.start : ChartEdge N T → Nat
  | .mk _ s _ _ => s

/-- Field accessor mirroring Rust `ChartEdge::end`. -/
def ChartEdge.«end» : ChartEdge N T → Nat
  | .mk _ _ e _ => e

/-- Field accessor mirroring Rust `ChartEdge::history`. -/
def ChartEdge.history : ChartEdge N T → List (ChartEdge N T)
  | .mk _ _ _ h => h

mutual

/-- Decidable structural equality on edges, mirroring Rust's derived
`PartialEq`/`Eq` on `ChartEdge`: rule, span and history are all compared. -/
def ChartEdge.decEq : (a b : ChartEdge N T) → Decidable (a = b)
  | .mk r s e h, .mk r' s' e' h' =>
    if hr : r = r' then
      if hs : s = s' then
        if he : e = e' then
          match ChartEdge.decEqList h h' with
          | isTrue hh => isTrue (by rw [hr, hs, he, hh])
          | isFalse hh => isFalse (by intro hc; injection hc; contradiction)
        else isFalse (by intro hc; injection hc; contradiction)
      else isFalse (by intro hc; injection hc; contradiction)
    else isFalse (by intro hc; injection hc; contradiction)

/-- Decidable pointwise equality on lists of edges. -/
def ChartEdge.decEqList : (a b : List (ChartEdge N T)) → Decidable (a = b)
  | [], [] => isTrue rfl
  | a :: as, b :: bs =>
    match ChartEdge.decEq a b, ChartEdge.decEqList as bs with
    | isTrue h1, isTrue h2 => isTrue (by rw [h1, h2])
    | isFalse h1, _ => isFalse (by intro hc; injection hc; contradiction)
    | isTrue _, isFalse h2 => isFalse (by intro hc; injection hc; contradiction)
  | [], _ :: _ => isFalse (by intro hc; exact List.noConfusion hc)
  | _ :: _, [] => isFalse (by intro hc; exact List.noConfusion hc)

end

instance : DecidableEq (ChartEdge N T) := ChartEdge.decEq

/-- Rust `Tree<T>` from `src/tree.rs`: a value and an ordered list of
children. -/
inductive Tree (α : Type) where
  | mk (value : α) (children : List (Tree α))

/-- Rust `Tree::new`. -/
def Tree.new (value : α) (children : List (Tree α)) : Tree α :=
  .mk value children

/-- The value stored at the root of a tree. -/
def Tree.value : Tree α → α
  | .mk v _ => v

/-- The children of the root of a tree. -/
def Tree.children : Tree α → List (Tree α)
  | .mk _ c => c

mutual

/-- Decidable structural equality on trees. -/
def Tree.decEq [DecidableEq α] : (a b : Tree α) → Decidable (a = b)
  | .mk v c, .mk v' c' =>
    if hv : v = v' then
      match Tree.decEqList c c' with
      | isTrue hc => isTrue (by rw [hv, hc])
      | isFalse hc => isFalse (by intro h; injection h; contradiction)
    else isFalse (by intro h; injection h; contradiction)

/-- Decidable pointwise equality on lists of trees. -/
def Tree.decEqList [DecidableEq α] : (a b : List (Tree α)) → Decidable (a = b)
  | [], [] => isTrue rfl
  | a :: as, b :: bs =>
    match Tree.decEq a b, Tree.decEqList as bs with
    | isTrue h1, isTrue h2 => isTrue (by rw [h1, h2])
    | isFalse h1, _ => isFalse (by intro hc; injection hc; contradiction)
    | isTrue _, isFalse h2 => isFalse (by intro hc; injection hc; contradiction)
  | [], _ :: _ => isFalse (by intro hc; exact List.noConfusion hc)
  | _ :: _, [] => isFalse (by intro hc; exact List.noConfusion hc)

end

instance [DecidableEq α] : DecidableEq (Tree α) := Tree.decEq

mutual

/-- Rust `ChartEdge::generate_derivation_tree`: the children are the trees of
the history entries, in order, and then — pushed after them — one leaf for
every `Terminal` symbol of the production's right-hand side, in RHS order.
The `map` of the source over the history list is expressed by the mutual
helper `generate_derivation_trees` so that the nested recursion is
structural; `generate_derivation_trees_eq_map` below states that the helper
is precisely that `map`. -/
def ChartEdge.generate_derivation_tree : ChartEdge N T → Tree (Symbol N T)
  | .mk dr _ _ hist =>
    Tree.new (Symbol.Nonterminal dr.production.lhs)
      (ChartEdge.generate_derivation_trees hist ++
        dr.production.rhs.filterMap fun s =>
          match s with
          | Symbol.Terminal t => some (Tree.new (Symbol.Terminal t) [])
          | Symbol.Nonterminal _ => none)

/-- The derivation trees of a list of edges, in order. -/
def ChartEdge.generate_derivation_trees : List (ChartEdge N T) → List (Tree (Symbol N T))
  | [] => []
  | e :: es =>
    ChartEdge.generate_derivation_tree e :: ChartEdge.generate_derivation_trees es

end

/-- Rust `Chart<N, T>`.  `productions` is the flat production list passed to
`Chart::new`; the `HashMap` field `productions_by_lhs` is recovered from it by
`Chart.productions_by_lhs` below (grouping puts exactly the productions with a
given LHS, in insertion order, into that key's entry).  `startSym` models the
associated constant `N::start()` of the `Nonterminal` trait for the chosen
nonterminal type.  `all_edges` (a `HashSet` in Rust) is a duplicate-free list
in insertion order, `to_process` (a `VecDeque`) has its front at the head. -/
structure Chart (N T : Type) where
  input_string : List T
  productions : List (Production N T)
  startSym : N
  all_edges : List (ChartEdge N T)
  to_process : List (ChartEdge N T)
  complete_derivations : List (ChartEdge N T)
  trace_chart : List (ChartEdge N T × List Nat)
  trace : Bool
deriving DecidableEq

/-- The entry of the Rust `productions_by_lhs` map for key `n`: exactly the
productions with `lhs = n`, in insertion order (the map is built by pushing
each production onto its key's vector).  An absent key corresponds to an empty
result. -/
def Chart.productions_by_lhs (c : Chart N T) (n : N) : List (Production N T) :=
  c.productions.filter fun p => p.lhs == n

/-- Rust `usize::MAX`, used by `add_to_trace_chart` when a history edge is not
found in the trace log. -/
def USIZE_MAX : Nat := 2 ^ 64 - 1

/-- Rust `Chart::new`.  Groups the productions by LHS, then seeds the worklist
and the edge set with one initial edge per production of the start symbol.
The source panics (`expect("No starting productions")`) when the start symbol
has no production; that case is `none`. -/
def Chart.new (input_string : List T) (productions : List (Production N T))
    (startSym : N) : Option (Chart N T) :=
  let startProds := productions.filter fun p => p.lhs == startSym
  if startProds.isEmpty then none
  else
    let seeds := startProds.map fun p => ChartEdge.mk (p.into_dotted_rule 0) 0 0 []
    some
      { input_string := input_string
        productions := productions
        startSym := startSym
        all_edges := seeds.foldl (fun s e => if e ∈ s then s else s ++ [e]) []
        to_process := seeds
        complete_derivations := []
        trace_chart := []
        trace := false }

/-- Rust `Chart::set_trace`. -/
def Chart.set_trace (c : Chart N T) (trace : Bool) : Chart N T :=
  { c with trace := trace }

/-- Rust `Chart::add_to_trace_chart`: when tracing is on, append the edge to
the trace log together with its history rewritten into indices of the first
structurally equal edge already in the log (`usize::MAX` when absent). -/
def Chart.add_to_trace_chart (c : Chart N T) (edge : ChartEdge N T) : Chart N T :=
  if c.trace then
    let history : List Nat := edge.history.map fun e =>
      match c.trace_chart.findIdx? (fun p => e == p.1) with
      | some j => j
      | none => USIZE_MAX
    { c with trace_chart := c.trace_chart ++ [(edge, history)] }
  else c

/-- Rust `Chart::add_edge`: the single insertion gate.  An edge enters the
worklist, the trace log and the edge set only when no structurally equal edge
is already in the set. -/
def Chart.add_edge (c : Chart N T) (new_edge : ChartEdge N T) : Chart N T :=
  if new_edge ∈ c.all_edges then c
  else
    let c1 := c.add_to_trace_chart new_edge
    { c1 with
        to_process := c1.to_process ++ [new_edge]
        all_edges := c1.all_edges ++ [new_edge] }

/-- Rust `Chart::add_edges`: insert a batch of edges one at a time. -/
def Chart.add_edges (c : Chart N T) (new_edges : List (ChartEdge N T)) : Chart N T :=
  new_edges.foldl Chart.add_edge c

/-- The guard and push of the Complete branch of `Chart::process_one` that
records a full parse: an edge whose LHS is the start symbol and which spans
the whole input is appended to `complete_derivations`. -/
def Chart.record_complete (c : Chart N T) (edge : ChartEdge N T) : Chart N T :=
  if edge.dotted_rule.production.lhs == c.startSym && edge.start == 0
      && edge.«end» == c.input_string.length then
    { c with complete_derivations := c.complete_derivations ++ [edge] }
  else c

/-- The edge synthesis of the Complete branch of `Chart::process_one`: for
every edge of the set whose next expected symbol is the completed nonterminal
and whose end equals the completed edge's start, one advanced edge with the
completed edge appended to the history. -/
def completeCandidates (all_edges : List (ChartEdge N T)) (completed_nonterminal : N)
    (edge : ChartEdge N T) : List (ChartEdge N T) :=
  all_edges.filterMap fun other_edge =>
    if some (Symbol.Nonterminal completed_nonterminal) == other_edge.dotted_rule.next_symbol
        && other_edge.«end» == edge.start then
      some (ChartEdge.mk other_edge.dotted_rule.advanced_dot other_edge.start edge.«end»
        (other_edge.history ++ [edge]))
    else none

/-- Rust `Chart::more_to_process`. -/
def Chart.more_to_process (c : Chart N T) : Bool :=
  !c.to_process.isEmpty

/-- The dispatch on the symbol after the dot in the body of
`Chart::process_one`, factored out over the chart `c1` that remains after the
edge has been popped from the worklist: Predict for a nonterminal, Scan for a
terminal, Complete when the dot is at the end.  Predicting a nonterminal with
no production panics in the source
(`expect("Expected non-terminal to have a production")`) and is `none` here. -/
def Chart.process_edge (c1 : Chart N T) (edge : ChartEdge N T) :
    Option (Chart N T × ChartEdge N T) :=
  match edge.dotted_rule.next_symbol with
  | some (Symbol.Nonterminal nonterminal) =>
    let productions := c1.productions_by_lhs nonterminal
    if productions.isEmpty then none
    else
      let new_edges := productions.map fun production =>
        ChartEdge.mk (production.into_dotted_rule 0) edge.«end» edge.«end» []
      some (c1.add_edges new_edges, edge)
  | some (Symbol.Terminal terminal) =>
    if c1.input_string.get? edge.«end» == some terminal then
      some (c1.add_edge
        (ChartEdge.mk edge.dotted_rule.advanced_dot edge.start (edge.«end» + 1) []), edge)
    else
      some (c1, edge)
  | none =>
    let completed_nonterminal := edge.dotted_rule.production.lhs
    let c2 := c1.record_complete edge
    some (c2.add_edges (completeCandidates c2.all_edges completed_nonterminal edge), edge)

/-- Rust `Chart::process_one`: pop the front edge of the worklist and apply
Predict / Scan / Complete depending on the symbol after the dot, returning the
updated chart and the processed edge.  The two panics of the source — the
worklist being empty, and predicting a nonterminal with no production — are
`none`. -/
def Chart.process_one (c : Chart N T) : Option (Chart N T × ChartEdge N T) :=
  match c.to_process with
  | [] => none
  | edge :: rest => ({ c with to_process := rest }).process_edge edge

/-- One iteration of the `Chart::process_all` loop: apply `process_one` and
keep the resulting chart; a chart on which `process_one` panics is left
unchanged. -/
def Chart.step (c : Chart N T) : Chart N T :=
  match c.process_one with
  | some (c', _) => c'
  | none => c

/-- Fuel iteration of `Chart.step`; `Chart::process_all` is this loop run
until the worklist is empty. -/
def Chart.processN (c : Chart N T) : Nat → Chart N T
  | 0 => c
  | n + 1 => c.step.processN n

/-- "`Chart::process_all` terminates on `c`": some finite number of
`process_one` steps empties the worklist. -/
def Chart.process_all_terminates (c : Chart N T) : Prop :=
  ∃ n : Nat, (c.processN n).to_process = []

/-- A small closed nonterminal alphabet for concrete instances of the engine;
`NT.S` plays the role of `Nonterminal::start()`. -/
inductive NT where
  | S
  | A
  | B
deriving DecidableEq

/-- A small closed terminal alphabet for concrete instances of the engine. -/
inductive TT where
  | x
  | y
deriving DecidableEq

/-- Fallback chart used only to strip the `Option` from `Chart.new` on
concrete inputs that are separately proved to construct successfully. -/
def emptyChart : Chart NT TT :=
  { input_string := []
    productions := []
    startSym := NT.S
    all_edges := []
    to_process := []
    complete_derivations := []
    trace_chart := []
    trace := false }

/-- Production `S -> S`. -/
def prodS_S : Production NT TT := ⟨NT.S, [Symbol.Nonterminal NT.S]⟩

/-- Production `S -> x`. -/
def prodS_x : Production NT TT := ⟨NT.S, [Symbol.Terminal TT.x]⟩

/-- Production `S -> A`. -/
def prodS_A : Production NT TT := ⟨NT.S, [Symbol.Nonterminal NT.A]⟩

/-- Production `S -> B`. -/
def prodS_B : Production NT TT := ⟨NT.S, [Symbol.Nonterminal NT.B]⟩

/-- Production `A -> x`. -/
def prodA_x : Production NT TT := ⟨NT.A, [Symbol.Terminal TT.x]⟩

/-- Production `B -> x`. -/
def prodB_x : Production NT TT := ⟨NT.B, [Symbol.Terminal TT.x]⟩

/-- Production `S -> x A`. -/
def prodS_xA : Production NT TT := ⟨NT.S, [Symbol.Terminal TT.x, Symbol.Nonterminal NT.A]⟩

/-- Production `A -> y`. -/
def prodA_y : Production NT TT := ⟨NT.A, [Symbol.Terminal TT.y]⟩

/-- Production `S -> A y`. -/
def prodS_Ay : Production NT TT := ⟨NT.S, [Symbol.Nonterminal NT.A, Symbol.Terminal TT.y]⟩

/-- Chart for the cyclic grammar `S -> S | x` on input `[x]`. -/
def cLoop : Chart NT TT :=
  (Chart.new [TT.x] [prodS_S, prodS_x] NT.S).getD emptyChart

/-- Chart for the ambiguous grammar `S -> A | B`, `A -> x`, `B -> x` on input
`[x]`. -/
def cAmb : Chart NT TT :=
  (Chart.new [TT.x] [prodS_A, prodS_B, prodA_x, prodB_x] NT.S).getD emptyChart

/-- Chart for the grammar `S -> x A`, `A -> y` (a terminal before a
nonterminal in a right-hand side) on input `[x, y]`. -/
def cMix : Chart NT TT :=
  (Chart.new [TT.x, TT.y] [prodS_xA, prodA_y] NT.S).getD emptyChart

/-- Chart for the grammar `S -> A y`, `A -> x` (a terminal after a nonterminal
in a right-hand side) on input `[x, y]`. -/
def cHist : Chart NT TT :=
  (Chart.new [TT.x, TT.y] [prodS_Ay, prodA_x] NT.S).getD emptyChart

/-- The chart reached after three steps on `cMix`: its worklist front is the
completed edge `A -> y •` over `[1, 2)`. -/
def cMix3 : Chart NT TT :=
  cMix.processN 3

/-- The parse-relevant fields of a chart: everything except the trace recorder
(`trace_chart` and the `trace` flag).  Claim C9 is that the engine's behaviour
on these fields does not depend on the trace flag. -/
structure CoreChart (N T : Type) where
  input_string : List T
  productions : List (Production N T)
  startSym : N
  all_edges : List (ChartEdge N T)
  to_process : List (ChartEdge N T)
  complete_derivations : List (ChartEdge N T)
deriving DecidableEq

/-- Projection of a chart onto its parse-relevant fields. -/
def Chart.core : Chart N T → CoreChart N T
  | ⟨ci, cp, cs, ca, ct, cc, _, _⟩ => ⟨ci, cp, cs, ca, ct, cc⟩

/-- `Chart.productions_by_lhs` on the trace-free projection. -/
def CoreChart.productions_by_lhs (c : CoreChart N T) (n : N) : List (Production N T) :=
  c.productions.filter fun p => p.lhs == n

/-- `Chart.add_edge` on the trace-free projection. -/
def CoreChart.add_edge (c : CoreChart N T) (new_edge : ChartEdge N T) : CoreChart N T :=
  if new_edge ∈ c.all_edges then c
  else
    { c with
        to_process := c.to_process ++ [new_edge]
        all_edges := c.all_edges ++ [new_edge] }

/-- `Chart.add_edges` on the trace-free projection. -/
def CoreChart.add_edges (c : CoreChart N T) (new_edges : List (ChartEdge N T)) : CoreChart N T :=
  new_edges.foldl CoreChart.add_edge c

/-- `Chart.record_complete` on the trace-free projection. -/
def CoreChart.record_complete (c : CoreChart N T) (edge : ChartEdge N T) : CoreChart N T :=
  if edge.dotted_rule.production.lhs == c.startSym && edge.start == 0
      && edge.«end» == c.input_string.length then
    { c with complete_derivations := c.complete_derivations ++ [edge] }
  else c

/-- `Chart.process_edge` on the trace-free projection. -/
def CoreChart.process_edge (c1 : CoreChart N T) (edge : ChartEdge N T) :
    Option (CoreChart N T × ChartEdge N T) :=
  match edge.dotted_rule.next_symbol with
  | some (Symbol.Nonterminal nonterminal) =>
    let productions := c1.productions_by_lhs nonterminal
    if productions.isEmpty then none
    else
      let new_edges := productions.map fun production =>
        ChartEdge.mk (production.into_dotted_rule 0) edge.«end» edge.«end» []
      some (c1.add_edges new_edges, edge)
  | some (Symbol.Terminal terminal) =>
    if c1.input_string.get? edge.«end» == some terminal then
      some (c1.add_edge
        (ChartEdge.mk edge.dotted_rule.advanced_dot edge.start (edge.«end» + 1) []), edge)
    else
      some (c1, edge)
  | none =>
    let completed_nonterminal := edge.dotted_rule.production.lhs
    let c2 := c1.record_complete edge
    some (c2.add_edges (completeCandidates c2.all_edges completed_nonterminal edge), edge)

/-- `Chart.process_one` on the trace-free projection. -/
def CoreChart.process_one (c : CoreChart N T) : Option (CoreChart N T × ChartEdge N T) :=
  match c.to_process with
  | [] => none
  | edge :: rest => ({ c with to_process := rest }).process_edge edge

/-- `Chart.step` on the trace-free projection. -/
def CoreChart.step (c : CoreChart N T) : CoreChart N T :=
  match c.process_one with
  | some (c', _) => c'
  | none => c

/-- `Chart.processN` on the trace-free projection. -/
def CoreChart.processN (c : CoreChart N T) : Nat → CoreChart N T
  | 0 => c
  | n + 1 => c.step.processN n

/-- The child list described by claim C3, written from the claim's own words:
walk the RHS left to right; a terminal contributes a synthesized leaf at its
own position, a nonterminal consumes the next reconstructed history tree, so
the leaves keep their original RHS positions relative to the nonterminal
children. -/
def interleavedChildren :
    List (Symbol N T) → List (Tree (Symbol N T)) → List (Tree (Symbol N T))
  | [], _ => []
  | Symbol.Terminal t :: rhs, hs =>
    Tree.new (Symbol.Terminal t) [] :: interleavedChildren rhs hs
  | Symbol.Nonterminal _ :: rhs, [] => interleavedChildren rhs []
  | Symbol.Nonterminal _ :: rhs, h :: hs => h :: interleavedChildren rhs hs

/-- The number of `Nonterminal` symbols in a right-hand side (the quantity
claim C5 compares history lengths against). -/
def nonterminalCount (rhs : List (Symbol N T)) : Nat :=
  (rhs.filter fun s =>
    match s with
    | Symbol.Nonterminal _ => true
    | Symbol.Terminal _ => false).length

/-- Well-formedness of a single edge against an input of length `len`:
`start ≤ end ≤ len` and the dot does not exceed the RHS length. -/
def WfEdge (len : Nat) (e : ChartEdge N T) : Prop :=
  e.start ≤ e.«end» ∧ e.«end» ≤ len
    ∧ e.dotted_rule.dot_pos ≤ e.dotted_rule.production.rhs.length

/-- The chart invariant, stated on the trace-free projection: every edge of
the edge set and the worklist is well-formed, and every recorded complete
derivation spans the whole input, has its dot at the end of the RHS and the
start symbol on its LHS. -/
structure CoreInv (c : CoreChart N T) : Prop where
  all_wf : ∀ e ∈ c.all_edges, WfEdge c.input_string.length e
  todo_wf : ∀ e ∈ c.to_process, WfEdge c.input_string.length e
  compl_full : ∀ e ∈ c.complete_derivations,
    e.start = 0 ∧ e.«end» = c.input_string.length
      ∧ e.dotted_rule.dot_pos = e.dotted_rule.production.rhs.length
      ∧ e.dotted_rule.production.lhs = c.startSym

/-- The family of pairwise distinct edges that the Complete step keeps
generating on the cyclic grammar `S -> S | x` with input `[x]`: `loopEdge 0`
is the scanned edge `S -> x •` over `[0, 1)`, and `loopEdge (k + 1)` is
`S -> S •` over `[0, 1)` with history `[loopEdge k]`. -/
def loopEdge : Nat → ChartEdge NT TT
  | 0 => ChartEdge.mk ⟨prodS_x, 1⟩ 0 1 []
  | k + 1 => ChartEdge.mk ⟨prodS_S, 1⟩ 0 1 [loopEdge k]

/-- The chart reached after `3 + k` steps on the cyclic grammar `S -> S | x`
with input `[x]`: the worklist always holds the next, strictly deeper,
completed `S` edge. -/
def loopState (k : Nat) : Chart NT TT :=
  { input_string := [TT.x]
    productions := [prodS_S, prodS_x]
    startSym := NT.S
    all_edges := [ChartEdge.mk ⟨prodS_S, 0⟩ 0 0 [], ChartEdge.mk ⟨prodS_x, 0⟩ 0 0 []]
        ++ (List.range (k + 2)).map loopEdge
    to_process := [loopEdge (k + 1)]
    complete_derivations := (List.range (k + 1)).map loopEdge
    trace_chart := []
    trace := false }

/-- Derivation tree `S (A (x))`, the first of the two trees of the ambiguous
grammar of claim C7. -/
def treeSA : Tree (Symbol NT TT) :=
  Tree.new (Symbol.Nonterminal NT.S)
    [Tree.new (Symbol.Nonterminal NT.A) [Tree.new (Symbol.Terminal TT.x) []]]

/-- Derivation tree `S (B (x))`, the second of the two trees of the ambiguous
grammar of claim C7. -/
def treeSB : Tree (Symbol NT TT) :=
  Tree.new (Symbol.Nonterminal NT.S)
    [Tree.new (Symbol.Nonterminal NT.B) [Tree.new (Symbol.Terminal TT.x) []]]

/-- The seed edge `S -> • x A` of the chart `cMix`, used to witness the Scan
step theorem. -/
def eMix0 : ChartEdge NT TT :=
  ChartEdge.mk (prodS_xA.into_dotted_rule 0) 0 0 []

/-- The completed edge `A -> y •` over `[1, 2)` that sits at the front of the
worklist of `cMix` after three steps, used to witness the Complete step
theorem. -/
def eMix3 : ChartEdge NT TT :=
  ChartEdge.mk ⟨prodA_y, 1⟩ 1 2 []

/-- The complete derivation edge `S -> A •` over `[0, 1)` of the ambiguous
grammar, used to witness the soundness and well-formedness theorems. -/
def eAmb1 : ChartEdge NT TT :=
  ChartEdge.mk ⟨prodS_A, 1⟩ 0 1 [ChartEdge.mk ⟨prodA_x, 1⟩ 0 1 []]

/-- When `next_symbol` yields a symbol, the dot is strictly inside the RHS. -/
theorem DottedRule.next_symbol_some_lt (d : DottedRule N T) {s : Symbol N T}
    (h : d.next_symbol = some s) : d.dot_pos < d.production.rhs.length := by
  unfold DottedRule.next_symbol at h
  by_cases hge : d.dot_pos ≥ d.production.rhs.length
  · rw [if_pos hge] at h
    exact Option.noConfusion h
  · omega

/-- When `next_symbol` yields nothing, the dot is at (or beyond) the end. -/
theorem DottedRule.next_symbol_none_ge (d : DottedRule N T)
    (h : d.next_symbol = none) : d.production.rhs.length ≤ d.dot_pos := by
  unfold DottedRule.next_symbol at h
  by_cases hge : d.dot_pos ≥ d.production.rhs.length
  · exact hge
  · rw [if_neg hge] at h
    push_neg at hge
    rw [List.get?_eq_get hge] at h
    exact Option.noConfusion h

/-- The mutual helper of `generate_derivation_tree` is the `map` of the
source. -/
theorem generate_derivation_trees_eq_map (es : List (ChartEdge N T)) :
    ChartEdge.generate_derivation_trees es = es.map ChartEdge.generate_derivation_tree := by
  induction es with
  | nil => rfl
  | cons e es ih =>
    rw [ChartEdge.generate_derivation_trees, ih, List.map_cons]

/-- Unfolding equation for `generate_derivation_tree` with the history
children written as the `map` of the source. -/
theorem generate_derivation_tree_eq (dr : DottedRule N T) (s e : Nat)
    (hist : List (ChartEdge N T)) :
    (ChartEdge.mk dr s e hist).generate_derivation_tree
      = Tree.new (Symbol.Nonterminal dr.production.lhs)
          (hist.map ChartEdge.generate_derivation_tree ++
            dr.production.rhs.filterMap fun sym =>
              match sym with
              | Symbol.Terminal t => some (Tree.new (Symbol.Terminal t) [])
              | Symbol.Nonterminal _ => none) := by
  rw [ChartEdge.generate_derivation_tree, generate_derivation_trees_eq_map]

/-- Membership after repeatedly inserting through a duplicate guard is
membership in the accumulator or in the inserted list. -/
theorem mem_foldl_insert {α : Type} [DecidableEq α] (l acc : List α) (x : α) :
    (x ∈ l.foldl (fun s e => if e ∈ s then s else s ++ [e]) acc) ↔ x ∈ acc ∨ x ∈ l := by
  induction l generalizing acc with
  | nil => simp
  | cons a as ih =>
    simp only [List.foldl_cons]
    by_cases h : a ∈ acc
    · rw [if_pos h, ih]
      simp only [List.mem_cons]
      constructor
      · tauto
      · rintro (hx | rfl | hx)
        · tauto
        · exact Or.inl h
        · tauto
    · rw [if_neg h, ih]
      simp only [List.mem_append, List.mem_cons, List.mem_singleton]
      tauto

/-- Filtering through an `if ... then some ... else none` is mapping over the
filtered list. -/
theorem filterMap_if_eq_map_filter {α β : Type} (p : α → Bool) (f : α → β) (l : List α) :
    l.filterMap (fun a => if p a then some (f a) else none) = (l.filter p).map f := by
  induction l with
  | nil => rfl
  | cons a l ih =>
    by_cases h : p a = true
    · rw [List.filterMap_cons, List.filter_cons]
      simp [h, ih]
    · rw [List.filterMap_cons, List.filter_cons]
      simp [h, ih]

/-- The Complete step synthesizes exactly one advanced edge per matching edge
of the set and nothing else: the `filterMap` of the source is the map of the
advance over the filter of the match condition. -/
theorem completeCandidates_eq_map_filter (all_edges : List (ChartEdge N T))
    (cn : N) (edge : ChartEdge N T) :
    completeCandidates all_edges cn edge
      = (all_edges.filter fun o =>
          some (Symbol.Nonterminal cn) == o.dotted_rule.next_symbol
            && o.«end» == edge.start).map
          fun o => ChartEdge.mk o.dotted_rule.advanced_dot o.start edge.«end»
            (o.history ++ [edge]) := by
  unfold completeCandidates
  exact filterMap_if_eq_map_filter _ _ all_edges

/-- Iterating the step splits over addition of fuel. -/
theorem Chart.processN_add (c : Chart N T) (m n : Nat) :
    c.processN (m + n) = (c.processN m).processN n := by
  induction m generalizing c with
  | zero => rw [Nat.zero_add]; rfl
  | succ m ih =>
    have : m + 1 + n = (m + n) + 1 := by omega
    rw [this]
    show c.step.processN (m + n) = ((c.step).processN m).processN n
    exact ih c.step

/-- Peeling one step off the end of the fuel. -/
theorem Chart.processN_succ_last (c : Chart N T) (n : Nat) :
    c.processN (n + 1) = (c.processN n).step := by
  rw [Chart.processN_add c n 1]
  rfl

/-- A chart with an empty worklist is a fixed point of the step. -/
theorem Chart.step_of_empty (c : Chart N T) (h : c.to_process = []) : c.step = c := by
  unfold Chart.step Chart.process_one
  rw [h]

/-- A chart with an empty worklist is a fixed point of any amount of fuel. -/
theorem Chart.processN_of_empty (c : Chart N T) (h : c.to_process = []) (n : Nat) :
    c.processN n = c := by
  induction n with
  | zero => rfl
  | succ n ih =>
    rw [Chart.processN_succ_last, ih, Chart.step_of_empty c h]


theorem Chart.core_all_edges (c : Chart N T) : c.core.all_edges = c.all_edges := by
  obtain ⟨ci, cp, cs, ca, ct, cc, ctr, cf⟩ := c
  rfl

theorem Chart.core_add_to_trace_chart (c : Chart N T) (e : ChartEdge N T) :
    (c.add_to_trace_chart e).core = c.core := by
  obtain ⟨ci, cp, cs, ca, ct, cc, ctr, cf⟩ := c
  unfold Chart.add_to_trace_chart
  split
  · rfl
  · rfl

theorem Chart.core_add_edge (c : Chart N T) (e : ChartEdge N T) :
    (c.add_edge e).core = c.core.add_edge e := by
  obtain ⟨ci, cp, cs, ca, ct, cc, ctr, cf⟩ := c
  unfold Chart.add_edge CoreChart.add_edge Chart.add_to_trace_chart
  by_cases h : e ∈ ca
  · simp only [Chart.core, h, ite_true]
  · cases cf <;> simp [h, Chart.core]

theorem Chart.core_add_edges (c : Chart N T) (es : List (ChartEdge N T)) :
    (c.add_edges es).core = c.core.add_edges es := by
  induction es generalizing c with
  | nil => rfl
  | cons e es ih =>
    show ((c.add_edge e).add_edges es).core = (c.core.add_edge e).add_edges es
    rw [ih, Chart.core_add_edge]

theorem Chart.core_record_complete (c : Chart N T) (e : ChartEdge N T) :
    (c.record_complete e).core = c.core.record_complete e := by
  obtain ⟨ci, cp, cs, ca, ct, cc, ctr, cf⟩ := c
  unfold Chart.record_complete CoreChart.record_complete
  simp only [Chart.core]
  split
  · rfl
  · rfl

theorem Chart.core_process_edge (c : Chart N T) (edge : ChartEdge N T) :
    (c.process_edge edge).map (fun p => (p.1.core, p.2)) = c.core.process_edge edge := by
  obtain ⟨ci, cp, cs, ca, ct, cc, ctr, cf⟩ := c
  unfold Chart.process_edge CoreChart.process_edge
  cases hs : edge.dotted_rule.next_symbol with
  | none =>
    show Option.map (fun p => (p.1.core, p.2))
        (some (((⟨ci, cp, cs, ca, ct, cc, ctr, cf⟩ : Chart N T).record_complete
            edge).add_edges
          (completeCandidates
            ((⟨ci, cp, cs, ca, ct, cc, ctr, cf⟩ : Chart N T).record_complete
              edge).all_edges
            edge.dotted_rule.production.lhs edge), edge))
      = some (((⟨ci, cp, cs, ca, ct, cc⟩ : CoreChart N T).record_complete
            edge).add_edges
          (completeCandidates
            ((⟨ci, cp, cs, ca, ct, cc⟩ : CoreChart N T).record_complete
              edge).all_edges
            edge.dotted_rule.production.lhs edge), edge)
    simp only [Option.map_some']
    rw [Chart.core_add_edges, Chart.core_record_complete]
    have hall : ((⟨ci, cp, cs, ca, ct, cc, ctr, cf⟩ : Chart N T).record_complete
          edge).all_edges
        = (((⟨ci, cp, cs, ca, ct, cc, ctr, cf⟩ : Chart N T).record_complete
            edge).core).all_edges :=
      (Chart.core_all_edges _).symm
    rw [hall, Chart.core_record_complete]
    rfl
  | some s =>
    cases s with
    | Nonterminal nonterminal =>
      show Option.map (fun p => (p.1.core, p.2))
          (if ((cp.filter fun p => p.lhs == nonterminal).isEmpty) = true then none
           else some (Chart.add_edges ⟨ci, cp, cs, ca, ct, cc, ctr, cf⟩
             ((cp.filter fun p => p.lhs == nonterminal).map fun production =>
               ChartEdge.mk (production.into_dotted_rule 0) edge.«end» edge.«end» []),
             edge))
        = (if ((cp.filter fun p => p.lhs == nonterminal).isEmpty) = true then none
           else some (CoreChart.add_edges ⟨ci, cp, cs, ca, ct, cc⟩
             ((cp.filter fun p => p.lhs == nonterminal).map fun production =>
               ChartEdge.mk (production.into_dotted_rule 0) edge.«end» edge.«end» []),
             edge))
      by_cases h : ((cp.filter fun p => p.lhs == nonterminal).isEmpty) = true
      · rw [if_pos h, if_pos h]
        rfl
      · rw [if_neg h, if_neg h]
        simp only [Option.map_some']
        rw [Chart.core_add_edges]
        rfl
    | Terminal terminal =>
      show Option.map (fun p => (p.1.core, p.2))
          (if (ci.get? edge.«end» == some terminal) = true then
            some (Chart.add_edge ⟨ci, cp, cs, ca, ct, cc, ctr, cf⟩
              (ChartEdge.mk edge.dotted_rule.advanced_dot edge.start (edge.«end» + 1) []),
              edge)
          else some ((⟨ci, cp, cs, ca, ct, cc, ctr, cf⟩ : Chart N T), edge))
        = (if (ci.get? edge.«end» == some terminal) = true then
            some (CoreChart.add_edge ⟨ci, cp, cs, ca, ct, cc⟩
              (ChartEdge.mk edge.dotted_rule.advanced_dot edge.start (edge.«end» + 1) []),
              edge)
          else some ((⟨ci, cp, cs, ca, ct, cc⟩ : CoreChart N T), edge))
      by_cases h : (ci.get? edge.«end» == some terminal) = true
      · rw [if_pos h, if_pos h]
        simp only [Option.map_some']
        rw [Chart.core_add_edge]
        rfl
      · rw [if_neg h, if_neg h]
        rfl

theorem Chart.core_process_one (c : Chart N T) :
    c.process_one.map (fun p => (p.1.core, p.2)) = c.core.process_one := by
  obtain ⟨ci, cp, cs, ca, ct, cc, ctr, cf⟩ := c
  cases ct with
  | nil => rfl
  | cons edge rest =>
    show (Chart.process_edge ⟨ci, cp, cs, ca, rest, cc, ctr, cf⟩ edge).map
        (fun p => (p.1.core, p.2))
      = CoreChart.process_edge ⟨ci, cp, cs, ca, rest, cc⟩ edge
    exact Chart.core_process_edge ⟨ci, cp, cs, ca, rest, cc, ctr, cf⟩ edge

theorem Chart.core_step (c : Chart N T) : c.step.core = c.core.step := by
  unfold Chart.step CoreChart.step
  have h := Chart.core_process_one c
  cases hp : c.process_one with
  | none =>
    rw [hp] at h
    rw [← h]
    rfl
  | some p =>
    rw [hp] at h
    rw [← h]
    rfl

theorem Chart.core_processN (c : Chart N T) (n : Nat) :
    (c.processN n).core = c.core.processN n := by
  induction n generalizing c with
  | zero => rfl
  | succ n ih =>
    show (c.step.processN n).core = c.core.step.processN n
    rw [ih, Chart.core_step]

/-- C9: toggling the trace recorder via `set_trace` does not change parse
results — after any number of engine steps, two runs differing only in the
trace flag agree on the input, the grammar, the edge set, the worklist and
the `complete_derivations()` list; the trace recorder is purely
observational. -/
theorem C9_trace_observational (c : Chart N T) (b₁ b₂ : Bool) (n : Nat) :
    ((c.set_trace b₁).processN n).core = ((c.set_trace b₂).processN n).core := by
  rw [Chart.core_processN, Chart.core_processN]
  rfl

/-- The trace-free projection keeps the worklist. -/
theorem Chart.core_to_process (c : Chart N T) : c.core.to_process = c.to_process := by
  obtain ⟨ci, cp, cs, ca, ct, cc, ctr, cf⟩ := c
  rfl

/-- The trace-free projection keeps the input. -/
theorem Chart.core_input_string (c : Chart N T) : c.core.input_string = c.input_string := by
  obtain ⟨ci, cp, cs, ca, ct, cc, ctr, cf⟩ := c
  rfl

/-- The trace-free projection keeps the start symbol. -/
theorem Chart.core_startSym (c : Chart N T) : c.core.startSym = c.startSym := by
  obtain ⟨ci, cp, cs, ca, ct, cc, ctr, cf⟩ := c
  rfl

/-- The trace-free projection keeps the complete-derivation list. -/
theorem Chart.core_complete_derivations (c : Chart N T) :
    c.core.complete_derivations = c.complete_derivations := by
  obtain ⟨ci, cp, cs, ca, ct, cc, ctr, cf⟩ := c
  rfl

/-- Popping a nonempty worklist dispatches the front edge over the chart that
remains. -/
theorem Chart.process_one_cons (c : Chart N T) (edge : ChartEdge N T)
    (rest : List (ChartEdge N T)) (hq : c.to_process = edge :: rest) :
    c.process_one = ({ c with to_process := rest }).process_edge edge := by
  unfold Chart.process_one
  rw [hq]

/-- Recording a complete derivation does not touch the edge set. -/
theorem Chart.record_complete_keeps_edge_set (c : Chart N T) (e : ChartEdge N T) :
    (c.record_complete e).all_edges = c.all_edges := by
  unfold Chart.record_complete
  split
  · rfl
  · rfl

/-- Inserting through the gate keeps the input. -/
theorem CoreChart.add_edge_input_string (c : CoreChart N T) (e : ChartEdge N T) :
    (c.add_edge e).input_string = c.input_string := by
  unfold CoreChart.add_edge
  split
  · rfl
  · rfl

/-- Inserting through the gate keeps the start symbol. -/
theorem CoreChart.add_edge_startSym (c : CoreChart N T) (e : ChartEdge N T) :
    (c.add_edge e).startSym = c.startSym := by
  unfold CoreChart.add_edge
  split
  · rfl
  · rfl

/-- Inserting through the gate keeps the complete-derivation list. -/
theorem CoreChart.add_edge_complete_derivations (c : CoreChart N T) (e : ChartEdge N T) :
    (c.add_edge e).complete_derivations = c.complete_derivations := by
  unfold CoreChart.add_edge
  split
  · rfl
  · rfl

/-- An edge of the set after an insertion was already there or is the
inserted one. -/
theorem CoreChart.mem_add_edge_all {c : CoreChart N T} {e x : ChartEdge N T}
    (h : x ∈ (c.add_edge e).all_edges) : x ∈ c.all_edges ∨ x = e := by
  unfold CoreChart.add_edge at h
  split at h
  · exact Or.inl h
  · rcases List.mem_append.mp h with h | h
    · exact Or.inl h
    · exact Or.inr (List.mem_singleton.mp h)

/-- An edge of the worklist after an insertion was already there or is the
inserted one. -/
theorem CoreChart.mem_add_edge_todo {c : CoreChart N T} {e x : ChartEdge N T}
    (h : x ∈ (c.add_edge e).to_process) : x ∈ c.to_process ∨ x = e := by
  unfold CoreChart.add_edge at h
  split at h
  · exact Or.inl h
  · rcases List.mem_append.mp h with h | h
    · exact Or.inl h
    · exact Or.inr (List.mem_singleton.mp h)

/-- Batch insertion keeps the input. -/
theorem CoreChart.add_edges_input_string (c : CoreChart N T) (es : List (ChartEdge N T)) :
    (c.add_edges es).input_string = c.input_string := by
  induction es generalizing c with
  | nil => rfl
  | cons e es ih =>
    show ((c.add_edge e).add_edges es).input_string = _
    rw [ih, CoreChart.add_edge_input_string]

/-- Batch insertion keeps the start symbol. -/
theorem CoreChart.add_edges_startSym (c : CoreChart N T) (es : List (ChartEdge N T)) :
    (c.add_edges es).startSym = c.startSym := by
  induction es generalizing c with
  | nil => rfl
  | cons e es ih =>
    show ((c.add_edge e).add_edges es).startSym = _
    rw [ih, CoreChart.add_edge_startSym]

/-- Recording a complete derivation keeps every field but the list itself. -/
theorem CoreChart.record_complete_all_edges (c : CoreChart N T) (e : ChartEdge N T) :
    (c.record_complete e).all_edges = c.all_edges := by
  unfold CoreChart.record_complete
  split
  · rfl
  · rfl

/-- Recording a complete derivation keeps the worklist. -/
theorem CoreChart.record_complete_to_process (c : CoreChart N T) (e : ChartEdge N T) :
    (c.record_complete e).to_process = c.to_process := by
  unfold CoreChart.record_complete
  split
  · rfl
  · rfl

/-- Recording a complete derivation keeps the input. -/
theorem CoreChart.record_complete_input_string (c : CoreChart N T) (e : ChartEdge N T) :
    (c.record_complete e).input_string = c.input_string := by
  unfold CoreChart.record_complete
  split
  · rfl
  · rfl

/-- Recording a complete derivation keeps the start symbol. -/
theorem CoreChart.record_complete_startSym (c : CoreChart N T) (e : ChartEdge N T) :
    (c.record_complete e).startSym = c.startSym := by
  unfold CoreChart.record_complete
  split
  · rfl
  · rfl

/-- A member of the complete-derivation list after recording was already
there, or is the recorded edge and the span/start-symbol guard held. -/
theorem CoreChart.mem_record_complete {c : CoreChart N T} {e x : ChartEdge N T}
    (h : x ∈ (c.record_complete e).complete_derivations) :
    x ∈ c.complete_derivations
      ∨ (x = e ∧ (e.dotted_rule.production.lhs == c.startSym && e.start == 0
          && e.«end» == c.input_string.length) = true) := by
  unfold CoreChart.record_complete at h
  split at h
  · next hcond =>
    rcases List.mem_append.mp h with h | h
    · exact Or.inl h
    · exact Or.inr ⟨List.mem_singleton.mp h, hcond⟩
  · exact Or.inl h

/-- The insertion gate preserves the chart invariant when the inserted edge is
well-formed. -/
theorem CoreInv.add_edge {c : CoreChart N T} {e : ChartEdge N T}
    (inv : CoreInv c) (he : WfEdge c.input_string.length e) : CoreInv (c.add_edge e) := by
  constructor
  · intro x hx
    rw [CoreChart.add_edge_input_string]
    rcases CoreChart.mem_add_edge_all hx with h | rfl
    · exact inv.all_wf x h
    · exact he
  · intro x hx
    rw [CoreChart.add_edge_input_string]
    rcases CoreChart.mem_add_edge_todo hx with h | rfl
    · exact inv.todo_wf x h
    · exact he
  · intro x hx
    rw [CoreChart.add_edge_input_string, CoreChart.add_edge_startSym]
    rw [CoreChart.add_edge_complete_derivations] at hx
    exact inv.compl_full x hx

/-- Batch insertion preserves the chart invariant when every inserted edge is
well-formed. -/
theorem CoreInv.add_edges {c : CoreChart N T} {es : List (ChartEdge N T)}
    (inv : CoreInv c) (hes : ∀ e ∈ es, WfEdge c.input_string.length e) :
    CoreInv (c.add_edges es) := by
  induction es generalizing c with
  | nil => exact inv
  | cons e es ih =>
    show CoreInv ((c.add_edge e).add_edges es)
    refine ih (inv.add_edge (hes e (List.mem_cons_self e es))) ?_
    intro x hx
    rw [CoreChart.add_edge_input_string]
    exact hes x (List.mem_cons_of_mem e hx)

/-- Recording a complete derivation preserves the chart invariant when the
recorded edge is well-formed and fully matched. -/
theorem CoreInv.record_complete {c : CoreChart N T} {e : ChartEdge N T}
    (inv : CoreInv c) (he : WfEdge c.input_string.length e)
    (hn : e.dotted_rule.next_symbol = none) : CoreInv (c.record_complete e) := by
  constructor
  · intro x hx
    rw [CoreChart.record_complete_input_string]
    rw [CoreChart.record_complete_all_edges] at hx
    exact inv.all_wf x hx
  · intro x hx
    rw [CoreChart.record_complete_input_string]
    rw [CoreChart.record_complete_to_process] at hx
    exact inv.todo_wf x hx
  · intro x hx
    rw [CoreChart.record_complete_input_string, CoreChart.record_complete_startSym]
    rcases CoreChart.mem_record_complete hx with h | ⟨rfl, hcond⟩
    · exact inv.compl_full x h
    · simp only [Bool.and_eq_true, beq_iff_eq] at hcond
      obtain ⟨⟨h1, h2⟩, h3⟩ := hcond
      have hge := DottedRule.next_symbol_none_ge _ hn
      have hle := he.2.2
      exact ⟨h2, h3, by omega, h1⟩

/-- Dispatching a well-formed edge preserves the chart invariant and the
static fields. -/
theorem CoreInv.process_edge {c c' : CoreChart N T} {edge e : ChartEdge N T}
    (inv : CoreInv c) (hedge : WfEdge c.input_string.length edge)
    (hp : c.process_edge edge = some (c', e)) :
    CoreInv c' ∧ c'.input_string = c.input_string ∧ c'.startSym = c.startSym := by
  unfold CoreChart.process_edge at hp
  cases hs : edge.dotted_rule.next_symbol with
  | none =>
    rw [hs] at hp
    injection hp with hp
    have hc' : c' = (c.record_complete edge).add_edges
        (completeCandidates (c.record_complete edge).all_edges
          edge.dotted_rule.production.lhs edge) := (congrArg Prod.fst hp).symm
    subst hc'
    have invr : CoreInv (c.record_complete edge) := inv.record_complete hedge hs
    have hcands : ∀ x ∈ completeCandidates (c.record_complete edge).all_edges
        edge.dotted_rule.production.lhs edge,
        WfEdge (c.record_complete edge).input_string.length x := by
      intro x hx
      rw [CoreChart.record_complete_all_edges] at hx
      rw [CoreChart.record_complete_input_string]
      unfold completeCandidates at hx
      rcases List.mem_filterMap.mp hx with ⟨o, ho, hxo⟩
      by_cases hcond : (some (Symbol.Nonterminal edge.dotted_rule.production.lhs)
          == o.dotted_rule.next_symbol && o.«end» == edge.start) = true
      · rw [if_pos hcond] at hxo
        injection hxo with hxo
        subst hxo
        simp only [Bool.and_eq_true, beq_iff_eq] at hcond
        obtain ⟨h1, h2⟩ := hcond
        have ho' := inv.all_wf o ho
        have hlt := DottedRule.next_symbol_some_lt o.dotted_rule h1.symm
        have hs1 : o.start ≤ o.«end» := ho'.1
        have hs2 : edge.start ≤ edge.«end» := hedge.1
        have hs3 : edge.«end» ≤ c.input_string.length := hedge.2.1
        have hs4 : o.dotted_rule.dot_pos < o.dotted_rule.production.rhs.length := hlt
        refine ⟨?_, ?_, ?_⟩
        · show o.start ≤ edge.«end»
          omega
        · show edge.«end» ≤ c.input_string.length
          omega
        · show o.dotted_rule.dot_pos + 1 ≤ o.dotted_rule.production.rhs.length
          omega
      · rw [if_neg hcond] at hxo
        exact Option.noConfusion hxo
    refine ⟨invr.add_edges hcands, ?_, ?_⟩
    · rw [CoreChart.add_edges_input_string, CoreChart.record_complete_input_string]
    · rw [CoreChart.add_edges_startSym, CoreChart.record_complete_startSym]
  | some s =>
    cases s with
    | Nonterminal nonterminal =>
      rw [hs] at hp
      replace hp : (if (c.productions_by_lhs nonterminal).isEmpty = true then none
          else some (c.add_edges ((c.productions_by_lhs nonterminal).map fun production =>
            ChartEdge.mk (production.into_dotted_rule 0) edge.«end» edge.«end» []),
            edge)) = some (c', e) := hp
      by_cases hne : (c.productions_by_lhs nonterminal).isEmpty = true
      · rw [if_pos hne] at hp
        exact Option.noConfusion hp
      · rw [if_neg hne] at hp
        injection hp with hp
        have hc' : c' = c.add_edges ((c.productions_by_lhs nonterminal).map fun production =>
            ChartEdge.mk (production.into_dotted_rule 0) edge.«end» edge.«end» []) :=
          (congrArg Prod.fst hp).symm
        subst hc'
        have hnew : ∀ x ∈ (c.productions_by_lhs nonterminal).map fun production =>
            ChartEdge.mk (production.into_dotted_rule 0) edge.«end» edge.«end» [],
            WfEdge c.input_string.length x := by
          intro x hx
          rcases List.mem_map.mp hx with ⟨p, _, hxo⟩
          subst hxo
          exact ⟨Nat.le_refl _, hedge.2.1, Nat.zero_le _⟩
        refine ⟨inv.add_edges hnew, ?_, ?_⟩
        · rw [CoreChart.add_edges_input_string]
        · rw [CoreChart.add_edges_startSym]
    | Terminal terminal =>
      rw [hs] at hp
      replace hp : (if (c.input_string.get? edge.«end» == some terminal) = true then
          some (c.add_edge
            (ChartEdge.mk edge.dotted_rule.advanced_dot edge.start (edge.«end» + 1) []),
            edge)
          else some (c, edge)) = some (c', e) := hp
      by_cases hm : (c.input_string.get? edge.«end» == some terminal) = true
      · rw [if_pos hm] at hp
        injection hp with hp
        have hc' : c' = c.add_edge
            (ChartEdge.mk edge.dotted_rule.advanced_dot edge.start (edge.«end» + 1) []) :=
          (congrArg Prod.fst hp).symm
        subst hc'
        have hlt : edge.«end» < c.input_string.length := by
          rw [beq_iff_eq] at hm
          obtain ⟨hl, -⟩ := List.get?_eq_some.mp hm
          exact hl
        have hwf : WfEdge c.input_string.length
            (ChartEdge.mk edge.dotted_rule.advanced_dot edge.start (edge.«end» + 1) []) := by
          have ha := DottedRule.next_symbol_some_lt edge.dotted_rule hs
          have hb := hedge.1
          refine ⟨?_, ?_, ?_⟩
          · show edge.start ≤ edge.«end» + 1
            omega
          · show edge.«end» + 1 ≤ c.input_string.length
            omega
          · show edge.dotted_rule.dot_pos + 1 ≤ edge.dotted_rule.production.rhs.length
            omega
        refine ⟨inv.add_edge hwf, ?_, ?_⟩
        · rw [CoreChart.add_edge_input_string]
        · rw [CoreChart.add_edge_startSym]
      · rw [if_neg hm] at hp
        injection hp with hp
        have hc' : c' = c := (congrArg Prod.fst hp).symm
        subst hc'
        exact ⟨inv, rfl, rfl⟩

/-- A successful `process_one` step preserves the chart invariant and the
static fields. -/
theorem CoreInv.process_one {c c' : CoreChart N T} {e : ChartEdge N T}
    (inv : CoreInv c) (hp : c.process_one = some (c', e)) :
    CoreInv c' ∧ c'.input_string = c.input_string ∧ c'.startSym = c.startSym := by
  unfold CoreChart.process_one at hp
  cases hq : c.to_process with
  | nil =>
    rw [hq] at hp
    exact Option.noConfusion hp
  | cons edge rest =>
    rw [hq] at hp
    replace hp : ({ c with to_process := rest } : CoreChart N T).process_edge edge
        = some (c', e) := hp
    have inv1 : CoreInv ({ c with to_process := rest } : CoreChart N T) := by
      constructor
      · intro x hx
        exact inv.all_wf x hx
      · intro x hx
        exact inv.todo_wf x (by rw [hq]; exact List.mem_cons_of_mem edge hx)
      · intro x hx
        exact inv.compl_full x hx
    have hedge : WfEdge ({ c with to_process := rest } : CoreChart N T).input_string.length
        edge :=
      inv.todo_wf edge (by rw [hq]; exact List.mem_cons_self edge rest)
    exact CoreInv.process_edge (c := { c with to_process := rest }) inv1 hedge hp

/-- The step function preserves the chart invariant and the static fields. -/
theorem CoreInv.step {c : CoreChart N T} (inv : CoreInv c) :
    CoreInv c.step ∧ c.step.input_string = c.input_string
      ∧ c.step.startSym = c.startSym := by
  unfold CoreChart.step
  cases hp : c.process_one with
  | none => exact ⟨inv, rfl, rfl⟩
  | some p =>
    obtain ⟨c', e⟩ := p
    exact CoreInv.process_one inv hp

/-- Fuel iteration preserves the chart invariant and the static fields. -/
theorem CoreInv.processN {c : CoreChart N T} (inv : CoreInv c) (n : Nat) :
    CoreInv (c.processN n) ∧ (c.processN n).input_string = c.input_string
      ∧ (c.processN n).startSym = c.startSym := by
  induction n generalizing c with
  | zero => exact ⟨inv, rfl, rfl⟩
  | succ n ih =>
    have hstep := inv.step
    obtain ⟨h1, h2, h3⟩ := ih hstep.1
    refine ⟨h1, ?_, ?_⟩
    · rw [show c.processN (n + 1) = c.step.processN n from rfl, h2, hstep.2.1]
    · rw [show c.processN (n + 1) = c.step.processN n from rfl, h3, hstep.2.2]

/-- `Chart::new` establishes the chart invariant, with the given input and
start symbol. -/
theorem Chart.new_core_inv (input : List T) (productions : List (Production N T))
    (startSym : N) (c₀ : Chart N T) (h : Chart.new input productions startSym = some c₀) :
    CoreInv c₀.core ∧ c₀.core.input_string = input ∧ c₀.core.startSym = startSym := by
  simp only [Chart.new] at h
  by_cases hs : ((productions.filter fun p => p.lhs == startSym).isEmpty) = true
  · rw [if_pos hs] at h
    exact Option.noConfusion h
  · rw [if_neg hs] at h
    injection h with h
    subst h
    refine ⟨?_, rfl, rfl⟩
    constructor
    · intro x hx
      replace hx : x ∈ ((productions.filter fun p => p.lhs == startSym).map fun p =>
          ChartEdge.mk (p.into_dotted_rule 0) 0 0 []).foldl
            (fun s e => if e ∈ s then s else s ++ [e]) [] := hx
      rcases (mem_foldl_insert _ _ _).mp hx with h | h
      · exact absurd h (List.not_mem_nil x)
      · rcases List.mem_map.mp h with ⟨p, _, hxo⟩
        subst hxo
        exact ⟨Nat.le_refl _, Nat.zero_le _, Nat.zero_le _⟩
    · intro x hx
      replace hx : x ∈ (productions.filter fun p => p.lhs == startSym).map fun p =>
          ChartEdge.mk (p.into_dotted_rule 0) 0 0 [] := hx
      rcases List.mem_map.mp hx with ⟨p, _, hxo⟩
      subst hxo
      exact ⟨Nat.le_refl _, Nat.zero_le _, Nat.zero_le _⟩
    · intro x hx
      exact absurd hx (List.not_mem_nil x)

/-- C2: after any number of `process_one` steps on a chart built by
`Chart::new`, every edge of `complete_derivations()` starts at `0`, ends at
the input length, has its dot at the end of its RHS, and has the start symbol
as its LHS. -/
theorem C2_complete_derivations_sound (input : List T)
    (productions : List (Production N T)) (startSym : N) (c₀ : Chart N T)
    (h : Chart.new input productions startSym = some c₀) (n : Nat) :
    ∀ e ∈ (c₀.processN n).complete_derivations,
      e.start = 0 ∧ e.«end» = input.length
        ∧ e.dotted_rule.dot_pos = e.dotted_rule.production.rhs.length
        ∧ e.dotted_rule.production.lhs = startSym := by
  intro e he
  obtain ⟨inv0, hi0, hs0⟩ := Chart.new_core_inv input productions startSym c₀ h
  obtain ⟨invn, hin, hsn⟩ := CoreInv.processN inv0 n
  have hce : e ∈ (c₀.core.processN n).complete_derivations := by
    rw [← Chart.core_processN, Chart.core_complete_derivations]
    exact he
  have hfull := invn.compl_full e hce
  rw [hin, hi0, hsn, hs0] at hfull
  exact hfull

/-- C10: every edge ever placed in the edge set or the worklist — by
`Chart::new` or by any Predict/Scan/Complete action — satisfies
`start ≤ end ≤ input length` and `dot_pos ≤ rhs length`. -/
theorem C10_wellformed (input : List T) (productions : List (Production N T))
    (startSym : N) (c₀ : Chart N T)
    (h : Chart.new input productions startSym = some c₀) (n : Nat) :
    ∀ e, (e ∈ (c₀.processN n).all_edges ∨ e ∈ (c₀.processN n).to_process) →
      e.start ≤ e.«end» ∧ e.«end» ≤ input.length
        ∧ e.dotted_rule.dot_pos ≤ e.dotted_rule.production.rhs.length := by
  intro e he
  obtain ⟨inv0, hi0, hs0⟩ := Chart.new_core_inv input productions startSym c₀ h
  obtain ⟨invn, hin, hsn⟩ := CoreInv.processN inv0 n
  have hlen : (c₀.core.processN n).input_string.length = input.length := by
    rw [hin, hi0]
  rcases he with he | he
  · have hce : e ∈ (c₀.core.processN n).all_edges := by
      rw [← Chart.core_processN, Chart.core_all_edges]
      exact he
    have hw := invn.all_wf e hce
    unfold WfEdge at hw
    rw [hlen] at hw
    exact hw
  · have hce : e ∈ (c₀.core.processN n).to_process := by
      rw [← Chart.core_processN, Chart.core_to_process]
      exact he
    have hw := invn.todo_wf e hce
    unfold WfEdge at hw
    rw [hlen] at hw
    exact hw

/-- C3 (amended): for every edge, the derivation tree's root is labelled with
the rule's LHS nonterminal and its children are the recursive reconstructions
of the history entries, in order, followed by one synthesized leaf per
`Terminal` symbol of the rule's RHS in RHS order — the terminal leaves are
appended after all the nonterminal children rather than interleaved at their
original RHS positions. -/
theorem C3_children_order (dr : DottedRule N T) (s e : Nat)
    (hist : List (ChartEdge N T)) :
    (ChartEdge.mk dr s e hist).generate_derivation_tree
      = Tree.new (Symbol.Nonterminal dr.production.lhs)
          (hist.map ChartEdge.generate_derivation_tree ++
            dr.production.rhs.filterMap fun sym =>
              match sym with
              | Symbol.Terminal t => some (Tree.new (Symbol.Terminal t) [])
              | Symbol.Nonterminal _ => none) :=
  generate_derivation_tree_eq dr s e hist

/-- C3 fails as stated: for the grammar `S -> x A`, `A -> y` and input
`[x, y]`, the engine's complete derivation gets the tree `S(A(y), x)` — the
`A` subtree first, the leaf `x` appended after it — while interleaving the
leaves at their original RHS positions, as the claim describes, would give
`S(x, A(y))`; the two trees differ. -/
theorem C3_counterexample :
    ((cMix.processN 5).complete_derivations.map ChartEdge.generate_derivation_tree
      = [Tree.new (Symbol.Nonterminal NT.S)
          [Tree.new (Symbol.Nonterminal NT.A) [Tree.new (Symbol.Terminal TT.y) []],
           Tree.new (Symbol.Terminal TT.x) []]])
    ∧ (((cMix.processN 5).complete_derivations.map fun e =>
        Tree.new (Symbol.Nonterminal e.dotted_rule.production.lhs)
          (interleavedChildren e.dotted_rule.production.rhs
            (e.history.map ChartEdge.generate_derivation_tree)))
      = [Tree.new (Symbol.Nonterminal NT.S)
          [Tree.new (Symbol.Terminal TT.x) [],
           Tree.new (Symbol.Nonterminal NT.A) [Tree.new (Symbol.Terminal TT.y) []]]])
    ∧ Tree.new (Symbol.Nonterminal NT.S)
          [Tree.new (Symbol.Nonterminal NT.A) [Tree.new (Symbol.Terminal TT.y) []],
           Tree.new (Symbol.Terminal TT.x) []]
        ≠ Tree.new (Symbol.Nonterminal NT.S)
          [Tree.new (Symbol.Terminal TT.x) [],
           Tree.new (Symbol.Nonterminal NT.A) [Tree.new (Symbol.Terminal TT.y) []]] := by
  exact ⟨by decide, by decide, by decide⟩

/-- C5 (code bug): for the grammar `S -> A y`, `A -> x` and input `[x, y]`,
the run finishes after five steps; its single complete derivation is the edge
`S -> A y •` over `[0, 2)` whose history has length 0 even though its RHS has
one `Nonterminal` symbol — the Scan step builds the advanced edge with an
empty history (`history: Vec::new()` in earley.rs line 334), dropping the
`A -> x` child that the Complete step had recorded, and the derivation tree
accordingly degenerates to `S(y)` with the `A(x)` subtree lost. -/
theorem C5_scan_drops_history :
    (cHist.processN 5).more_to_process = false
    ∧ (cHist.processN 5).complete_derivations = [ChartEdge.mk ⟨prodS_Ay, 2⟩ 0 2 []]
    ∧ nonterminalCount prodS_Ay.rhs = 1
    ∧ ((cHist.processN 5).complete_derivations.map fun e => e.history.length) = [0]
    ∧ ((cHist.processN 5).complete_derivations.map ChartEdge.generate_derivation_tree)
      = [Tree.new (Symbol.Nonterminal NT.S) [Tree.new (Symbol.Terminal TT.y) []]] := by
  exact ⟨by decide, by decide, by decide, by decide, by decide⟩

/-- C6: when the dequeued edge expects a terminal, `process_one` returns
without error and produces exactly one candidate edge — dot advanced by one,
start unchanged, end incremented by one, empty history — exactly when the
input token at position `end` exists and equals that terminal; on a mismatch
or at end-of-input only the pop happens. -/
theorem C6_scan_step (c : Chart N T) (edge : ChartEdge N T)
    (rest : List (ChartEdge N T)) (t : T) (hq : c.to_process = edge :: rest)
    (ht : edge.dotted_rule.next_symbol = some (Symbol.Terminal t)) :
    c.process_one = some
      ((if c.input_string.get? edge.«end» == some t then
          ({ c with to_process := rest }).add_edge
            (ChartEdge.mk edge.dotted_rule.advanced_dot edge.start (edge.«end» + 1) [])
        else { c with to_process := rest }), edge) := by
  rw [Chart.process_one_cons c edge rest hq]
  unfold Chart.process_edge
  rw [ht]
  show (if (c.input_string.get? edge.«end» == some t) = true then
      some (({ c with to_process := rest } : Chart N T).add_edge
        (ChartEdge.mk edge.dotted_rule.advanced_dot edge.start (edge.«end» + 1) []), edge)
    else some (({ c with to_process := rest } : Chart N T), edge))
    = some ((if (c.input_string.get? edge.«end» == some t) = true then
        ({ c with to_process := rest } : Chart N T).add_edge
          (ChartEdge.mk edge.dotted_rule.advanced_dot edge.start (edge.«end» + 1) [])
      else { c with to_process := rest }), edge)
  by_cases h : (c.input_string.get? edge.«end» == some t) = true
  · rw [if_pos h, if_pos h]
  · rw [if_neg h, if_neg h]

/-- Witness for C6 at the chart `cMix`, whose seed edge `S -> • x A` expects
the terminal `x` at position 0. -/
theorem C6_witness :
    cMix.process_one = some
      ((if cMix.input_string.get? eMix0.«end» == some TT.x then
          ({ cMix with to_process := [] }).add_edge
            (ChartEdge.mk eMix0.dotted_rule.advanced_dot eMix0.start (eMix0.«end» + 1) [])
        else { cMix with to_process := [] }), eMix0) :=
  C6_scan_step cMix eMix0 [] TT.x (by decide) (by decide)

/-- C4: when the dequeued edge is fully matched, `process_one` returns the
chart that (after recording a possible full parse) inserts exactly one
candidate per edge of the set whose next expected symbol is the completed
LHS nonterminal and whose end equals the completed edge's start — the matched
edge's rule advanced by one, the matched edge's start, the completed edge's
end, and the matched edge's history with the completed edge appended — and no
other candidate. -/
theorem C4_complete_step (c : Chart N T) (edge : ChartEdge N T)
    (rest : List (ChartEdge N T)) (hq : c.to_process = edge :: rest)
    (hn : edge.dotted_rule.next_symbol = none) :
    c.process_one = some
      ((({ c with to_process := rest } : Chart N T).record_complete edge).add_edges
        (completeCandidates c.all_edges edge.dotted_rule.production.lhs edge), edge)
    ∧ completeCandidates c.all_edges edge.dotted_rule.production.lhs edge
      = (c.all_edges.filter fun o =>
          some (Symbol.Nonterminal edge.dotted_rule.production.lhs)
              == o.dotted_rule.next_symbol
            && o.«end» == edge.start).map
          fun o => ChartEdge.mk o.dotted_rule.advanced_dot o.start edge.«end»
            (o.history ++ [edge]) := by
  constructor
  · rw [Chart.process_one_cons c edge rest hq]
    unfold Chart.process_edge
    rw [hn]
    show some ((({ c with to_process := rest } : Chart N T).record_complete edge).add_edges
        (completeCandidates
          (({ c with to_process := rest } : Chart N T).record_complete edge).all_edges
          edge.dotted_rule.production.lhs edge), edge) = _
    rw [Chart.record_complete_keeps_edge_set]
  · exact completeCandidates_eq_map_filter c.all_edges edge.dotted_rule.production.lhs edge

/-- Witness for C4 at the chart reached after three steps on `cMix`, whose
worklist front is the completed edge `A -> y •`. -/
theorem C4_witness :
    cMix3.process_one = some
      ((({ cMix3 with to_process := [] } : Chart NT TT).record_complete eMix3).add_edges
        (completeCandidates cMix3.all_edges eMix3.dotted_rule.production.lhs eMix3), eMix3)
    ∧ completeCandidates cMix3.all_edges eMix3.dotted_rule.production.lhs eMix3
      = (cMix3.all_edges.filter fun o =>
          some (Symbol.Nonterminal eMix3.dotted_rule.production.lhs)
              == o.dotted_rule.next_symbol
            && o.«end» == eMix3.start).map
          fun o => ChartEdge.mk o.dotted_rule.advanced_dot o.start eMix3.«end»
            (o.history ++ [eMix3]) :=
  C4_complete_step cMix3 eMix3 [] (by decide) (by decide)

/-- C7: for the grammar `S -> A | B`, `A -> x`, `B -> x` and input `[x]`, the
run finishes after eight steps (and stays there for any further fuel) with
exactly two complete derivations whose derivation trees are distinct and both
rooted at `S` — the two completed `S` edges differ in their histories and
edge equality includes the history, so both are retained. -/
theorem C7_ambiguity :
    (cAmb.processN 8).more_to_process = false
    ∧ (cAmb.processN 8).complete_derivations.length = 2
    ∧ ((cAmb.processN 8).complete_derivations.map ChartEdge.generate_derivation_tree
        = [treeSA, treeSB])
    ∧ treeSA ≠ treeSB
    ∧ treeSA.value = Symbol.Nonterminal NT.S
    ∧ treeSB.value = Symbol.Nonterminal NT.S
    ∧ ∀ n : Nat, cAmb.processN (8 + n) = cAmb.processN 8 := by
  refine ⟨by decide, by decide, by decide, by decide, by decide, by decide, ?_⟩
  intro n
  rw [Chart.processN_add]
  exact Chart.processN_of_empty _ (by decide) n

/-- C8: `Chart::new` seeds the worklist with exactly one edge per
start-symbol production — dot 0, empty span at position 0, empty history —
and seeds the dedup set with exactly the same edges. -/
theorem C8_new_seeds (input : List T) (productions : List (Production N T))
    (startSym : N) (c₀ : Chart N T)
    (h : Chart.new input productions startSym = some c₀) :
    c₀.to_process = (productions.filter fun p => p.lhs == startSym).map
        (fun p => ChartEdge.mk (p.into_dotted_rule 0) 0 0 [])
    ∧ (∀ e ∈ c₀.to_process,
        e.dotted_rule.dot_pos = 0 ∧ e.start = 0 ∧ e.«end» = 0 ∧ e.history = [])
    ∧ (∀ e : ChartEdge N T, e ∈ c₀.to_process ↔ e ∈ c₀.all_edges) := by
  simp only [Chart.new] at h
  by_cases hs : ((productions.filter fun p => p.lhs == startSym).isEmpty) = true
  · rw [if_pos hs] at h
    exact Option.noConfusion h
  · rw [if_neg hs] at h
    injection h with h
    subst h
    refine ⟨rfl, ?_, ?_⟩
    · intro e he
      replace he : e ∈ (productions.filter fun p => p.lhs == startSym).map
          (fun p => ChartEdge.mk (p.into_dotted_rule 0) 0 0 []) := he
      rcases List.mem_map.mp he with ⟨p, _, hep⟩
      subst hep
      exact ⟨rfl, rfl, rfl, rfl⟩
    · intro e
      constructor
      · intro he
        replace he : e ∈ (productions.filter fun p => p.lhs == startSym).map
            (fun p => ChartEdge.mk (p.into_dotted_rule 0) 0 0 []) := he
        exact (mem_foldl_insert _ _ _).mpr (Or.inr he)
      · intro he
        replace he : e ∈ ((productions.filter fun p => p.lhs == startSym).map
            (fun p => ChartEdge.mk (p.into_dotted_rule 0) 0 0 [])).foldl
              (fun s e => if e ∈ s then s else s ++ [e]) [] := he
        rcases (mem_foldl_insert _ _ _).mp he with h1 | h1
        · exact absurd h1 (List.not_mem_nil e)
        · exact h1

/-- Witness for C8 at the ambiguous grammar, whose start symbol `S` has two
productions. -/
theorem C8_witness :
    cAmb.to_process = (([prodS_A, prodS_B, prodA_x, prodB_x].filter
        fun p => p.lhs == NT.S).map fun p => ChartEdge.mk (p.into_dotted_rule 0) 0 0 []) :=
  (C8_new_seeds [TT.x] [prodS_A, prodS_B, prodA_x, prodB_x] NT.S cAmb (by decide)).1

/-- Witness for C2 at the first complete derivation of the ambiguous
grammar. -/
theorem C2_witness :
    eAmb1.start = 0 ∧ eAmb1.«end» = ([TT.x] : List TT).length
      ∧ eAmb1.dotted_rule.dot_pos = eAmb1.dotted_rule.production.rhs.length
      ∧ eAmb1.dotted_rule.production.lhs = NT.S :=
  C2_complete_derivations_sound [TT.x] [prodS_A, prodS_B, prodA_x, prodB_x] NT.S cAmb
    (by decide) 8 eAmb1 (by decide)

/-- Witness for C10 at an edge of the edge set of the finished ambiguous
run. -/
theorem C10_witness :
    eAmb1.start ≤ eAmb1.«end» ∧ eAmb1.«end» ≤ ([TT.x] : List TT).length
      ∧ eAmb1.dotted_rule.dot_pos ≤ eAmb1.dotted_rule.production.rhs.length :=
  C10_wellformed [TT.x] [prodS_A, prodS_B, prodA_x, prodB_x] NT.S cAmb (by decide) 8 eAmb1
    (Or.inl (by decide))

/-- An insertion whose edge is new, on a chart that is not tracing, appends
the edge to the worklist and the edge set. -/
theorem Chart.add_edge_eq_of_not_mem {c : Chart N T} {e : ChartEdge N T}
    (h : e ∉ c.all_edges) (ht : c.trace = false) :
    c.add_edge e = { c with to_process := c.to_process ++ [e],
                            all_edges := c.all_edges ++ [e] } := by
  unfold Chart.add_edge Chart.add_to_trace_chart
  rw [if_neg h, ht]
  rw [if_neg (by decide : ¬((false : Bool) = true))]
  simp only [ht]

/-- `loopEdge` is injective: deeper histories give different edges. -/
theorem loopEdge_injective : ∀ j k : Nat, loopEdge j = loopEdge k → j = k
  | 0, 0, _ => rfl
  | 0, k + 1, h => by
    exfalso
    rw [show loopEdge 0 = ChartEdge.mk ⟨prodS_x, 1⟩ 0 1 [] from rfl,
      show loopEdge (k + 1) = ChartEdge.mk ⟨prodS_S, 1⟩ 0 1 [loopEdge k] from rfl] at h
    injection h with h1 _ _ _
    exact absurd h1 (by decide)
  | j + 1, 0, h => by
    exfalso
    rw [show loopEdge 0 = ChartEdge.mk ⟨prodS_x, 1⟩ 0 1 [] from rfl,
      show loopEdge (j + 1) = ChartEdge.mk ⟨prodS_S, 1⟩ 0 1 [loopEdge j] from rfl] at h
    injection h with h1 _ _ _
    exact absurd h1 (by decide)
  | j + 1, k + 1, h => by
    rw [show loopEdge (j + 1) = ChartEdge.mk ⟨prodS_S, 1⟩ 0 1 [loopEdge j] from rfl,
      show loopEdge (k + 1) = ChartEdge.mk ⟨prodS_S, 1⟩ 0 1 [loopEdge k] from rfl] at h
    injection h with _ _ _ h4
    injection h4 with h5 _
    exact congrArg Nat.succ (loopEdge_injective j k h5)

/-- Every `loopEdge` is fully matched: its dot is at the end of its RHS. -/
theorem loopEdge_next_symbol (i : Nat) :
    (loopEdge i).dotted_rule.next_symbol = none := by
  cases i with
  | zero =>
    show (⟨prodS_x, 1⟩ : DottedRule NT TT).next_symbol = none
    decide
  | succ i =>
    show (⟨prodS_S, 1⟩ : DottedRule NT TT).next_symbol = none
    decide

/-- The next loop edge is never already in the loop chart's edge set. -/
theorem loopEdge_not_mem (k : Nat) :
    loopEdge (k + 2) ∉ ([ChartEdge.mk ⟨prodS_S, 0⟩ 0 0 [],
        ChartEdge.mk ⟨prodS_x, 0⟩ 0 0 []] ++ (List.range (k + 2)).map loopEdge) := by
  intro h
  rcases List.mem_append.mp h with h | h
  · rcases List.mem_cons.mp h with h | h
    · rw [show loopEdge (k + 2) = ChartEdge.mk ⟨prodS_S, 1⟩ 0 1 [loopEdge (k + 1)]
          from rfl] at h
      injection h with h1 _ _ _
      exact absurd h1 (by decide)
    · rcases List.mem_cons.mp h with h | h
      · rw [show loopEdge (k + 2) = ChartEdge.mk ⟨prodS_S, 1⟩ 0 1 [loopEdge (k + 1)]
            from rfl] at h
        injection h with h1 _ _ _
        exact absurd h1 (by decide)
      · exact absurd h (List.not_mem_nil _)
  · rcases List.mem_map.mp h with ⟨i, hi, hie⟩
    have hik : i = k + 2 := loopEdge_injective i (k + 2) hie
    subst hik
    exact absurd (List.mem_range.mp hi) (by omega)

/-- On the loop chart, the Complete step synthesizes exactly the next, one
level deeper, loop edge: only the waiting seed `S -> • S` matches. -/
theorem loop_candidates (k : Nat) :
    completeCandidates
        ([ChartEdge.mk ⟨prodS_S, 0⟩ 0 0 [], ChartEdge.mk ⟨prodS_x, 0⟩ 0 0 []]
          ++ (List.range (k + 2)).map loopEdge) NT.S (loopEdge (k + 1))
      = [loopEdge (k + 2)] := by
  have h2 : ∀ l : List Nat, List.filterMap
      (fun other_edge : ChartEdge NT TT =>
        if some (Symbol.Nonterminal NT.S) == other_edge.dotted_rule.next_symbol
            && other_edge.«end» == (loopEdge (k + 1)).start then
          some (ChartEdge.mk other_edge.dotted_rule.advanced_dot other_edge.start
            (loopEdge (k + 1)).«end» (other_edge.history ++ [loopEdge (k + 1)]))
        else none) (l.map loopEdge) = [] := by
    intro l
    apply List.filterMap_eq_nil_iff.mpr
    intro a ha
    rcases List.mem_map.mp ha with ⟨i, _, rfl⟩
    rw [loopEdge_next_symbol i]
    rfl
  show loopEdge (k + 2) :: List.filterMap
      (fun other_edge : ChartEdge NT TT =>
        if some (Symbol.Nonterminal NT.S) == other_edge.dotted_rule.next_symbol
            && other_edge.«end» == (loopEdge (k + 1)).start then
          some (ChartEdge.mk other_edge.dotted_rule.advanced_dot other_edge.start
            (loopEdge (k + 1)).«end» (other_edge.history ++ [loopEdge (k + 1)]))
        else none) ((List.range (k + 2)).map loopEdge)
    = [loopEdge (k + 2)]
  rw [h2 (List.range (k + 2))]

/-- The step function advances the loop chart one level deeper. -/
theorem loop_step (k : Nat) : (loopState k).step = loopState (k + 1) := by
  have hall : (List.range (k + 2)).map loopEdge ++ [loopEdge (k + 2)]
      = (List.range (k + 1 + 2)).map loopEdge := by
    rw [show List.range (k + 1 + 2) = List.range (k + 2) ++ [k + 2] from
      List.range_succ (k + 2), List.map_append]
    rfl
  have hcompl : (List.range (k + 1)).map loopEdge ++ [loopEdge (k + 1)]
      = (List.range (k + 1 + 1)).map loopEdge := by
    rw [show List.range (k + 1 + 1) = List.range (k + 1) ++ [k + 1] from
      List.range_succ (k + 1), List.map_append]
    rfl
  have hcand := loop_candidates k
  show Chart.add_edges
      ⟨[TT.x], [prodS_S, prodS_x], NT.S,
        [ChartEdge.mk ⟨prodS_S, 0⟩ 0 0 [], ChartEdge.mk ⟨prodS_x, 0⟩ 0 0 []]
          ++ (List.range (k + 2)).map loopEdge,
        [],
        (List.range (k + 1)).map loopEdge ++ [loopEdge (k + 1)], [], false⟩
      (completeCandidates
        ([ChartEdge.mk ⟨prodS_S, 0⟩ 0 0 [], ChartEdge.mk ⟨prodS_x, 0⟩ 0 0 []]
          ++ (List.range (k + 2)).map loopEdge) NT.S (loopEdge (k + 1)))
    = loopState (k + 1)
  rw [hcand]
  show Chart.add_edge
      ⟨[TT.x], [prodS_S, prodS_x], NT.S,
        [ChartEdge.mk ⟨prodS_S, 0⟩ 0 0 [], ChartEdge.mk ⟨prodS_x, 0⟩ 0 0 []]
          ++ (List.range (k + 2)).map loopEdge,
        [],
        (List.range (k + 1)).map loopEdge ++ [loopEdge (k + 1)], [], false⟩
      (loopEdge (k + 2))
    = loopState (k + 1)
  rw [Chart.add_edge_eq_of_not_mem (loopEdge_not_mem k) rfl]
  show (⟨[TT.x], [prodS_S, prodS_x], NT.S,
      ([ChartEdge.mk ⟨prodS_S, 0⟩ 0 0 [], ChartEdge.mk ⟨prodS_x, 0⟩ 0 0 []]
        ++ (List.range (k + 2)).map loopEdge) ++ [loopEdge (k + 2)],
      [] ++ [loopEdge (k + 2)],
      (List.range (k + 1)).map loopEdge ++ [loopEdge (k + 1)], [], false⟩ : Chart NT TT)
    = loopState (k + 1)
  unfold loopState
  rw [List.append_assoc, hall, hcompl, List.nil_append]

/-- On the cyclic grammar `S -> S | x` with input `[x]`, the chart after
`3 + k` steps is `loopState k`. -/
theorem loop_invariant : ∀ k : Nat, cLoop.processN (3 + k) = loopState k
  | 0 => by decide
  | k + 1 => by
    rw [show (3 : Nat) + (k + 1) = (3 + k) + 1 from rfl, Chart.processN_succ_last,
      loop_invariant k, loop_step k]

/-- On the cyclic grammar the worklist is nonempty after any number of
steps. -/
theorem loop_never_empty (n : Nat) : (cLoop.processN n).to_process ≠ [] := by
  by_cases h : n < 3
  · interval_cases n
    · decide
    · decide
    · decide
  · obtain ⟨k, rfl⟩ : ∃ k, n = 3 + k := ⟨n - 3, by omega⟩
    rw [loop_invariant k]
    show loopEdge (k + 1) :: [] ≠ []
    exact List.cons_ne_nil _ _

/-- C1 (amended): `process_all` need not terminate — edge identity includes
the history, so the insertion gate does not bound the chart by its finitely
many `(rule, start, end)` triples.  On the cyclic grammar `S -> S | x` (which
has a start production and a production for every nonterminal reachable
after a dot) with input `[x]`, every Complete step inserts a structurally new
edge with a strictly deeper history and the worklist is nonempty after any
number of `process_one` steps. -/
theorem C1_nontermination (n : Nat) : (cLoop.processN n).more_to_process = true := by
  have h := loop_never_empty n
  unfold Chart.more_to_process
  cases hq : (cLoop.processN n).to_process with
  | nil => exact absurd hq h
  | cons a l => rfl

/-- C1 fails as stated: for the grammar `S -> S | x` and input `[x]` — a
finite grammar whose start symbol has a production and whose only
dot-reachable nonterminal `S` has productions — no finite number of
`process_one` steps empties the worklist, so `process_all` does not
terminate. -/
theorem C1_counterexample : cLoop.process_all_terminates ↔ False := by
  rw [iff_false]
  rintro ⟨n, hn⟩
  exact loop_never_empty n hn

end Earley
